import Mathlib

/-!
Shallow embedding of the financial aggregation logic of the goblin
personal-finance app (React/TypeScript sources under `src/`).

Modelling conventions:
* JS `number` arithmetic on monetary values is modelled over `Rat`
  (exact rational arithmetic); raw stored amounts are `Int` minor units.
* A calendar-day string `"yyyy-MM-dd"` is modelled as a `Nat` day index:
  string equality, lexicographic comparison and the `addDays` successor
  map to `Nat` equality, `<` and `+1`.  Where only the `"yyyy-MM"` month
  prefix matters it is modelled as a `Nat` month index.
* A JS object used as a string-keyed dictionary is modelled as an
  association list in insertion order (assignment to an existing key
  updates in place, a fresh key is appended; an object holds at most one
  binding per key).
* `Array.prototype.sort` is stable (ES2019); a comparator sort is
  modelled by a stable insertion sort for the same preorder, which
  produces the identical output list.
-/

namespace Goblin

/-- JS dictionary read-modify-write `m[k] = f(m[k] ?? d)`: a JS object holds at
most one binding per key, so the first (unique) binding for `k` is updated in
place; a fresh key is appended, preserving insertion order. -/
def upsert {κ β : Type} [DecidableEq κ] (m : List (κ × β)) (k : κ) (d : β)
    (f : β → β) : List (κ × β) :=
  match m with
  | [] => [(k, f d)]
  | p :: m => if p.1 = k then (p.1, f p.2) :: m else p :: upsert m k d f

/-- JS dictionary read `m[k] ?? d` (first, i.e. unique, binding for `k`). -/
def lookupD {κ β : Type} [DecidableEq κ] (m : List (κ × β)) (k : κ) (d : β) : β :=
  match m with
  | [] => d
  | p :: m => if p.1 = k then p.2 else lookupD m k d

namespace Daily

/-! ### DailyLedgerAggregator
Embeds `dailyData` from `src/src/pages/SubscriptionsPage.tsx` (lines 381–413);
the variant in `src/src/pages/DashboardPage.tsx` (lines 88–112) is the same
computation without the contributor lists. -/

/-- A transaction as consumed by `dailyData`: the `"yyyy-MM-dd"` date string is
modelled as a day index, `amount` is a signed integer in minor units. -/
structure Tx where
  date : Nat
  payee : String
  amount : Int
deriving DecidableEq

/-- An entry of a day's `topIncome`/`topExpenses` list (`{ payee, amount }`). -/
structure Contrib where
  payee : String
  amount : Rat
deriving DecidableEq

/-- One daily bucket (`DailyDataItem`). -/
structure DayRec where
  date : Nat
  income : Rat
  expenses : Rat
  topExpenses : List Contrib
  topIncome : List Contrib
deriving DecidableEq

/-- `{ date: dStr, income: 0, expenses: 0, topExpenses: [], topIncome: [] }` -/
def zeroDay (d : Nat) : DayRec := ⟨d, 0, 0, [], []⟩

/-- The `while (current <= endDate)` initialization loop: one zero record per
day of the inclusive range `[s, e]`, in ascending date order. -/
def initDays (s e : Nat) : List DayRec :=
  (List.range (e + 1 - s)).map (fun i => zeroDay (s + i))

/-- Body of the fill loop for one transaction hitting its day's record. -/
def updateDay (d : DayRec) (t : Tx) : DayRec :=
  if 0 < t.amount then
    { d with income := d.income + (t.amount : Rat) / 100,
             topIncome := d.topIncome ++ [⟨t.payee, (t.amount : Rat) / 100⟩] }
  else
    { d with expenses := d.expenses + |(t.amount : Rat)| / 100,
             topExpenses := d.topExpenses ++ [⟨t.payee, |(t.amount : Rat)| / 100⟩] }

/-- One iteration of `transactions.forEach`: the guard `if (days[dStr])` means
only an existing day record (a date inside the initialized range) is updated. -/
def applyTx (days : List DayRec) (t : Tx) : List DayRec :=
  days.map (fun d => if d.date = t.date then updateDay d t else d)

/-- Stable insertion step for the descending `sort((a, b) => b.amount - a.amount)`:
`x` is placed before the first element that does not exceed it, so elements of
equal amount keep their original relative order. -/
def insertContrib (x : Contrib) : List Contrib → List Contrib
  | [] => [x]
  | y :: ys => if y.amount ≤ x.amount then x :: y :: ys else y :: insertContrib x ys

/-- Stable descending sort by amount; `Array.prototype.sort` is stable, and a
stable sort for a given preorder is unique, so this insertion sort returns the
same list as the source's comparator sort. -/
def sortContribs : List Contrib → List Contrib
  | [] => []
  | x :: xs => insertContrib x (sortContribs xs)

/-- `day.topExpenses = day.topExpenses.sort(...).slice(0, 5)` and likewise for
`topIncome`. -/
def truncDay (d : DayRec) : DayRec :=
  { d with topExpenses := (sortContribs d.topExpenses).take 5,
           topIncome := (sortContribs d.topIncome).take 5 }

/-- Stable insertion step for the ascending `sort((a, b) => a.date.localeCompare(b.date))`. -/
def insertByDate (x : DayRec) : List DayRec → List DayRec
  | [] => [x]
  | y :: ys => if x.date ≤ y.date then x :: y :: ys else y :: insertByDate x ys

/-- Stable ascending sort of the day records by date. -/
def sortByDate : List DayRec → List DayRec
  | [] => []
  | x :: xs => insertByDate x (sortByDate xs)

/-- The whole `dailyData` memo: initialize the range, fill from the
transactions, truncate each day's contributor lists, return sorted by date. -/
def dailyData (s e : Nat) (txs : List Tx) : List DayRec :=
  sortByDate ((txs.foldl applyTx (initDays s e)).map truncDay)

/-- The state of the `days` map right after the `transactions.forEach` fill
loop, before the per-day sort/slice step: each day's contributor lists hold
that day's transactions in original processing order. -/
def accDays (s e : Nat) (txs : List Tx) : List DayRec :=
  txs.foldl applyTx (initDays s e)

/-- Total of the `income` field over a sequence of daily buckets. -/
def incomeSum (l : List DayRec) : Rat := (l.map (·.income)).sum

/-- Total of the `expenses` field over a sequence of daily buckets. -/
def expensesSum (l : List DayRec) : Rat := (l.map (·.expenses)).sum

end Daily

namespace Cat

/-! ### CategoryTreeBuilder
Embeds `buildCategoryTree` from `src/unnamed/part_002` (lines 24–51) and
`src/unnamed/part_003` (lines 11–38); the two copies are identical. -/

/-- `Category` restricted to the fields `buildCategoryTree` reads. -/
structure Category where
  id : Option Int
  name : String
  parent_id : Option Int
deriving DecidableEq

/-- A node of the built forest; node identity is the category id (the node
object spreads the category record, which is determined by its id). -/
inductive CTree where
  | mk (id : Int) (children : List CTree)

def CTree.id : CTree → Int
  | .mk i _ => i

def CTree.children : CTree → List CTree
  | .mk _ c => c

/-- First pass: `map.set(cat.id, ...)` for every non-null id, so `map.get(i)`
succeeds exactly when some category carries id `i`. -/
def inMap (cats : List Category) (i : Int) : Bool :=
  cats.any (fun c => c.id = some i)

/-- Mutable state of the second pass: the `roots` array (ids in push order) and
each node's `children` array keyed by the parent's id. -/
structure PassState where
  roots : List Int
  childMap : List (Int × List Int)
deriving DecidableEq

/-- One iteration of the second pass: skip a null id, push a parentless node to
`roots`, push a node whose `parent_id` resolves onto its parent's `children`,
and silently drop a node whose `parent_id` is dangling. -/
def pass2Step (cats : List Category) (st : PassState) (c : Category) : PassState :=
  match c.id with
  | none => st
  | some i =>
    if inMap cats i then
      match c.parent_id with
      | none => { st with roots := st.roots ++ [i] }
      | some pid =>
        if inMap cats pid then
          { st with childMap := upsert st.childMap pid [] (fun l => l ++ [i]) }
        else st
    else st

def secondPass (cats : List Category) : PassState :=
  cats.foldl (pass2Step cats) ⟨[], []⟩

/-- The `children` array of the node with id `i` after the second pass. -/
def childIds (cm : List (Int × List Int)) (i : Int) : List Int :=
  lookupD cm i []

/-- Materialize the node for id `i` by following the `children` references.
The fuel `cats.length` bounds the depth and is exact on acyclic inputs (the
data-model invariant: a parent cycle would make the JS object graph cyclic). -/
def build (cm : List (Int × List Int)) : Nat → Int → CTree
  | 0, i => .mk i []
  | n + 1, i => .mk i ((childIds cm i).map (build cm n))

/-- `buildCategoryTree`: run both passes and return the root nodes. -/
def buildCategoryTree (cats : List Category) : List CTree :=
  (secondPass cats).roots.map (build (secondPass cats).childMap cats.length)

/-- All category ids appearing in a tree. -/
def idsOf : CTree → List Int
  | .mk i cs => i :: (cs.attach.map (fun c => idsOf c.1)).flatten
decreasing_by
  have := List.sizeOf_lt_of_mem c.2
  simp only [CTree.mk.sizeOf_spec]
  omega

/-- All category ids appearing in a forest. -/
def forestIds (f : List CTree) : List Int := (f.map idsOf).flatten

/-- The non-null ids of a category list (used for the uniqueness hypothesis). -/
def catIds (cats : List Category) : List Int := cats.filterMap (·.id)

/-- The contribution of one category to the `roots` array (second pass). -/
def rootIdOf (cats : List Category) (c : Category) : Option Int :=
  match c.id, c.parent_id with
  | some i, none => if inMap cats i then some i else none
  | _, _ => none

/-- The contribution of one category to the children array of node `pid`. -/
def childOf (cats : List Category) (pid : Int) (c : Category) : Option Int :=
  match c.id, c.parent_id with
  | some i, some p => if inMap cats i && inMap cats p && p == pid then some i else none
  | _, _ => none

/-- The id a category pushes into some node's children array, if any. -/
def pushedChild (cats : List Category) (c : Category) : Option Int :=
  match c.id, c.parent_id with
  | some i, some p => if inMap cats i && inMap cats p then some i else none
  | _, _ => none

/-- All ids stored in the children arrays of the node map. -/
def allChildIds (cm : List (Int × List Int)) : List Int := (cm.map (·.2)).flatten

end Cat

namespace Merge

/-! ### MultiAccountMerger
Embeds the fold in `loadDashboardData` and the `donutData` /
`currentMonthIncome` / `currentMonthSpending` memos of
`src/src/pages/DashboardPage.tsx` (lines 64–76, 114–150). -/

/-- A transaction as used by the month KPIs: `tx.date.startsWith(thisMonth)`
compares the `"yyyy-MM"` prefix, modelled as a month index. -/
structure MTx where
  month : Nat
  amount : Int
deriving DecidableEq

/-- The per-account query results `{ txs, spending, latestBal }`. -/
structure AccountData where
  txs : List MTx
  spending : List (String × Int)
  latestBal : Int

/-- The accumulators `allTxs`, `allSpendingByCat`, `totalBal`. -/
structure MergedView where
  allTxs : List MTx
  spendingByCat : List (String × Int)
  totalBal : Int
deriving DecidableEq

/-- `allSpendingByCat[cat] = (allSpendingByCat[cat] || 0) + amount`. -/
def addSpending (acc : List (String × Int)) (p : String × Int) : List (String × Int) :=
  upsert acc p.1 0 (fun v => v + p.2)

/-- The body of `results.forEach(({ txs, spending, latestBal }) => ...)`:
`allTxs.push(...txs)`, `totalBal += latestBal`, and the per-label additions
into `allSpendingByCat`. -/
def mergeStep (m : MergedView) (r : AccountData) : MergedView :=
  { allTxs := m.allTxs ++ r.txs,
    spendingByCat := r.spending.foldl addSpending m.spendingByCat,
    totalBal := m.totalBal + r.latestBal }

/-- The whole `results.forEach` fold from the empty accumulators. -/
def foldResults (rs : List AccountData) : MergedView :=
  rs.foldl mergeStep ⟨[], [], 0⟩

/-- Merging the per-account spending lists alone (same fold, spending only). -/
def mergeSpending (ls : List (List (String × Int))) : List (String × Int) :=
  ls.foldl (fun acc s => s.foldl addSpending acc) []

/-- The merged total recorded for one category label. -/
def lookupCat (m : List (String × Int)) (label : String) : Int :=
  lookupD m label 0

/-- The total amount a single account's spending list carries for one label. -/
def labelTotal (s : List (String × Int)) (label : String) : Int :=
  ((s.filter (fun p => p.1 = label)).map (·.2)).sum

/-- A `donutData` entry `{ label, value }` (color omitted: presentation only). -/
structure DonutEntry where
  label : String
  value : Rat
deriving DecidableEq

/-- Stable insertion step for the descending `sort((a, b) => b.value - a.value)`. -/
def insertEntry (x : DonutEntry) : List DonutEntry → List DonutEntry
  | [] => [x]
  | y :: ys => if y.value ≤ x.value then x :: y :: ys else y :: insertEntry x ys

/-- Stable descending sort of donut entries by value. -/
def sortEntries : List DonutEntry → List DonutEntry
  | [] => []
  | x :: xs => insertEntry x (sortEntries xs)

/-- `donutData`: map each `[label, value]` pair to `{label, Math.abs(value)/100}`,
sort descending by value, keep the top 5. -/
def donutData (m : List (String × Int)) : List DonutEntry :=
  (sortEntries (m.map (fun p => ⟨p.1, |(p.2 : Rat)| / 100⟩))).take 5

/-- `currentMonthIncome`: sum of positive amounts in the current month. -/
def currentMonthIncome (thisMonth : Nat) (txs : List MTx) : Int :=
  ((txs.filter (fun t => t.month == thisMonth && decide (0 < t.amount))).map
    (·.amount)).sum

/-- `currentMonthSpending`: sum of `Math.abs(amount)` over the current month's
negative amounts. -/
def currentMonthSpending (thisMonth : Nat) (txs : List MTx) : Int :=
  ((txs.filter (fun t => t.month == thisMonth && decide (t.amount < 0))).map
    (fun t => |t.amount|)).sum

end Merge

namespace Budget

/-! ### BudgetUtilizationCalculator
Embeds the `percent` / `isOverBudget` computation of the budget cards in
`src/unnamed/part_001` (lines 192–194). -/

/-- `BudgetWithSpending` restricted to the two fields the calculator reads. -/
structure BudgetWithSpending where
  allocated_amount : Int
  spent_amount : Int
deriving DecidableEq

/-- `b.allocated_amount > 0 ? Math.min(100, (b.spent_amount / b.allocated_amount) * 100) : 0` -/
def percentOf (b : BudgetWithSpending) : Rat :=
  if 0 < b.allocated_amount then
    min 100 ((b.spent_amount : Rat) / (b.allocated_amount : Rat) * 100)
  else 0

/-- `b.spent_amount > b.allocated_amount` -/
def isOverBudget (b : BudgetWithSpending) : Bool :=
  decide (b.allocated_amount < b.spent_amount)

end Budget

namespace Recur

/-! ### RecurringCostNormalizer
Embeds `monthlySubscriptionCost` from `src/unnamed/part_004` (lines 164–175)
and `totalExpectedIncome` from `src/unnamed/part_001` (lines 90–100).
The JS literals `4.33` and `2.17` denote the exact decimals `433/100` and
`217/100`. -/

/-- `Subscription` restricted to the fields the normalizer reads. -/
structure Subscription where
  amount : Int
  frequency : String
deriving DecidableEq

/-- One subscription's contribution: `Math.abs(sub.amount)` scaled by the
frequency switch, any unrecognized tag falling through to the default. -/
def subMonthly (s : Subscription) : Rat :=
  match s.frequency with
  | "weekly" => |(s.amount : Rat)| * (433 / 100)
  | "biweekly" => |(s.amount : Rat)| * (217 / 100)
  | "monthly" => |(s.amount : Rat)|
  | "yearly" => |(s.amount : Rat)| / 12
  | _ => |(s.amount : Rat)|

/-- `subscriptions.reduce(...)` monthly total. -/
def monthlySubscriptionCost (subs : List Subscription) : Rat :=
  subs.foldl (fun total s => total + subMonthly s) 0

/-- `IncomeStream` restricted to the fields used. -/
structure IncomeStream where
  expected_amount : Int
  frequency : String
  is_active : Bool
deriving DecidableEq

/-- One income stream's monthly estimate; this switch has no explicit
`"monthly"` case, `monthly` and unknown tags share the default branch. -/
def streamMonthly (s : IncomeStream) : Rat :=
  match s.frequency with
  | "weekly" => (s.expected_amount : Rat) * (433 / 100)
  | "biweekly" => (s.expected_amount : Rat) * (217 / 100)
  | "yearly" => (s.expected_amount : Rat) / 12
  | _ => (s.expected_amount : Rat)

/-- `totalExpectedIncome`: active streams only, reduced over `streamMonthly`. -/
def totalExpectedIncome (streams : List IncomeStream) : Rat :=
  (streams.filter (·.is_active)).foldl (fun acc s => acc + streamMonthly s) 0

end Recur

/-! ## Supporting lemmas -/

theorem upsert_nil {κ β : Type} [DecidableEq κ] (k : κ) (d : β) (f : β → β) :
    upsert ([] : List (κ × β)) k d f = [(k, f d)] := rfl

theorem upsert_cons {κ β : Type} [DecidableEq κ] (p : κ × β) (m : List (κ × β))
    (k : κ) (d : β) (f : β → β) :
    upsert (p :: m) k d f =
      if p.1 = k then (p.1, f p.2) :: m else p :: upsert m k d f := rfl

theorem lookupD_upsert_self {κ β : Type} [DecidableEq κ] (m : List (κ × β))
    (k : κ) (d : β) (f : β → β) :
    lookupD (upsert m k d f) k d = f (lookupD m k d) := by
  induction m with
  | nil => simp [upsert, lookupD]
  | cons p m ih =>
    by_cases hp : p.1 = k
    · simp [upsert, lookupD, hp]
    · simp [upsert, lookupD, hp, ih]

theorem lookupD_upsert_ne {κ β : Type} [DecidableEq κ] (m : List (κ × β))
    (k k' : κ) (d d' : β) (f : β → β) (h : k' ≠ k) :
    lookupD (upsert m k d f) k' d' = lookupD m k' d' := by
  induction m with
  | nil => simp [upsert, lookupD, Ne.symm h]
  | cons p m ih =>
    by_cases hp : p.1 = k
    · have hp' : p.1 ≠ k' := by rw [hp]; exact fun hc => h hc.symm
      simp [upsert, lookupD, hp, hp', Ne.symm h]
    · by_cases hq : p.1 = k'
      · simp [upsert, lookupD, hp, hq, h]
      · simp [upsert, lookupD, hp, hq, ih]

theorem keys_upsert {κ β : Type} [DecidableEq κ] (m : List (κ × β)) (k : κ)
    (d : β) (f : β → β) :
    (upsert m k d f).map Prod.fst =
      (if k ∈ m.map Prod.fst then m.map Prod.fst else m.map Prod.fst ++ [k]) := by
  induction m with
  | nil => simp [upsert]
  | cons p m ih =>
    by_cases hp : p.1 = k
    · simp [upsert, hp]
    · by_cases hk : k ∈ m.map Prod.fst
      · simp [upsert, hp, hk, Ne.symm hp, ih]
      · simp [upsert, hp, hk, Ne.symm hp, ih]

namespace Daily

theorem updateDay_date (d : DayRec) (t : Tx) : (updateDay d t).date = d.date := by
  unfold updateDay; split <;> rfl

theorem updateDay_income (d : DayRec) (t : Tx) :
    (updateDay d t).income = d.income + (if 0 < t.amount then (t.amount : Rat) / 100 else 0) := by
  unfold updateDay; split <;> simp

theorem updateDay_expenses (d : DayRec) (t : Tx) :
    (updateDay d t).expenses =
      d.expenses + (if 0 < t.amount then 0 else |(t.amount : Rat)| / 100) := by
  unfold updateDay; split <;> simp

theorem applyTx_dates (days : List DayRec) (t : Tx) :
    (applyTx days t).map (·.date) = days.map (·.date) := by
  unfold applyTx
  rw [List.map_map]
  apply List.map_congr_left
  intro d _
  by_cases h : d.date = t.date <;> simp [h, updateDay_date]

theorem foldl_applyTx_dates (txs : List Tx) (days : List DayRec) :
    (txs.foldl applyTx days).map (·.date) = days.map (·.date) := by
  induction txs generalizing days with
  | nil => rfl
  | cons t ts ih => rw [List.foldl_cons, ih, applyTx_dates]

theorem applyTx_of_not_mem (days : List DayRec) (t : Tx)
    (h : t.date ∉ days.map (·.date)) : applyTx days t = days := by
  unfold applyTx
  have : ∀ d ∈ days, (if d.date = t.date then updateDay d t else d) = d := by
    intro d hd
    have : d.date ≠ t.date := fun hc => h (hc ▸ List.mem_map_of_mem (·.date) hd)
    simp [this]
  simpa using List.map_congr_left this

theorem initDays_dates (s e : Nat) :
    (initDays s e).map (·.date) = (List.range (e + 1 - s)).map (fun i => s + i) := by
  simp [initDays, zeroDay, List.map_map]

theorem initDays_dates_pairwise (s e : Nat) :
    ((initDays s e).map (·.date)).Pairwise (· < ·) := by
  rw [initDays_dates]
  exact (List.pairwise_lt_range _).map _ (fun a b h => by omega)

theorem mem_initDays_dates (s e : Nat) (x : Nat) (hse : s ≤ e) :
    x ∈ (initDays s e).map (·.date) ↔ s ≤ x ∧ x ≤ e := by
  rw [initDays_dates]
  simp only [List.mem_map, List.mem_range]
  constructor
  · rintro ⟨i, hi, rfl⟩; omega
  · rintro ⟨h1, h2⟩; exact ⟨x - s, by omega, by omega⟩

theorem insertByDate_of_head (x : DayRec) (l : List DayRec)
    (h : ∀ y ∈ l.head?, x.date ≤ y.date) : insertByDate x l = x :: l := by
  cases l with
  | nil => rfl
  | cons y ys => simp [insertByDate, h y rfl]

theorem sortByDate_of_sorted (l : List DayRec)
    (h : l.Pairwise (fun a b => a.date < b.date)) : sortByDate l = l := by
  induction l with
  | nil => rfl
  | cons x xs ih =>
    rw [List.pairwise_cons] at h
    rw [sortByDate, ih h.2]
    apply insertByDate_of_head
    intro y hy
    cases xs with
    | nil => simp at hy
    | cons z zs =>
      simp only [List.head?_cons, Option.mem_def, Option.some.injEq] at hy
      exact le_of_lt (hy ▸ h.1 z (List.mem_cons_self z zs))

theorem truncDay_date (d : DayRec) : (truncDay d).date = d.date := rfl

theorem preSort_dates (s e : Nat) (txs : List Tx) :
    (((txs.foldl applyTx (initDays s e)).map truncDay).map (·.date)) =
      (initDays s e).map (·.date) := by
  rw [List.map_map]
  have : ((·.date) ∘ truncDay : DayRec → Nat) = (·.date) := rfl
  rw [this, foldl_applyTx_dates]

theorem preSort_pairwise (s e : Nat) (txs : List Tx) :
    ((txs.foldl applyTx (initDays s e)).map truncDay).Pairwise
      (fun a b => a.date < b.date) := by
  have h := preSort_dates s e txs
  have hp : ((((txs.foldl applyTx (initDays s e)).map truncDay).map (·.date))).Pairwise (· < ·) := by
    rw [h]; exact initDays_dates_pairwise s e
  exact (List.pairwise_map.mp hp)

theorem dailyData_eq_preSort (s e : Nat) (txs : List Tx) :
    dailyData s e txs = (txs.foldl applyTx (initDays s e)).map truncDay := by
  unfold dailyData
  exact sortByDate_of_sorted _ (preSort_pairwise s e txs)

theorem dailyData_dates (s e : Nat) (txs : List Tx) :
    (dailyData s e txs).map (·.date) = (initDays s e).map (·.date) := by
  rw [dailyData_eq_preSort]; exact preSort_dates s e txs

theorem incomeSum_cons (d : DayRec) (l : List DayRec) :
    incomeSum (d :: l) = d.income + incomeSum l := by simp [incomeSum]

theorem expensesSum_cons (d : DayRec) (l : List DayRec) :
    expensesSum (d :: l) = d.expenses + expensesSum l := by simp [expensesSum]

theorem applyTx_cons (d : DayRec) (ds : List DayRec) (t : Tx) :
    applyTx (d :: ds) t = (if d.date = t.date then updateDay d t else d) :: applyTx ds t := rfl

theorem sum_income_applyTx (days : List DayRec) (t : Tx) :
    incomeSum (applyTx days t) =
      incomeSum days + ((days.map (·.date)).count t.date : Rat) *
        (if 0 < t.amount then (t.amount : Rat) / 100 else 0) := by
  induction days with
  | nil => simp [applyTx, incomeSum]
  | cons d ds ih =>
    rw [applyTx_cons, List.map_cons, List.count_cons]
    by_cases hd : d.date = t.date
    · have hb : (d.date == t.date) = true := beq_iff_eq.mpr hd
      rw [if_pos hd, incomeSum_cons, updateDay_income, incomeSum_cons, ih]
      simp only [hb, if_true]
      push_cast
      ring
    · have hb : (d.date == t.date) = false := beq_eq_false_iff_ne.mpr hd
      rw [if_neg hd, incomeSum_cons, incomeSum_cons, ih]
      simp only [hb, Bool.false_eq_true, if_false]
      push_cast
      ring

theorem sum_expenses_applyTx (days : List DayRec) (t : Tx) :
    expensesSum (applyTx days t) =
      expensesSum days + ((days.map (·.date)).count t.date : Rat) *
        (if 0 < t.amount then 0 else |(t.amount : Rat)| / 100) := by
  induction days with
  | nil => simp [applyTx, expensesSum]
  | cons d ds ih =>
    rw [applyTx_cons, List.map_cons, List.count_cons]
    by_cases hd : d.date = t.date
    · have hb : (d.date == t.date) = true := beq_iff_eq.mpr hd
      rw [if_pos hd, expensesSum_cons, updateDay_expenses, expensesSum_cons, ih]
      simp only [hb, if_true]
      push_cast
      ring
    · have hb : (d.date == t.date) = false := beq_eq_false_iff_ne.mpr hd
      rw [if_neg hd, expensesSum_cons, expensesSum_cons, ih]
      simp only [hb, Bool.false_eq_true, if_false]
      push_cast
      ring

theorem sum_income_foldl (txs : List Tx) (days : List DayRec) :
    incomeSum (txs.foldl applyTx days) =
      incomeSum days +
        (txs.map (fun t => ((days.map (·.date)).count t.date : Rat) *
          (if 0 < t.amount then (t.amount : Rat) / 100 else 0))).sum := by
  induction txs generalizing days with
  | nil => simp
  | cons t ts ih =>
    rw [List.foldl_cons, ih (applyTx days t), sum_income_applyTx, applyTx_dates,
      List.map_cons, List.sum_cons]
    ring

theorem sum_expenses_foldl (txs : List Tx) (days : List DayRec) :
    expensesSum (txs.foldl applyTx days) =
      expensesSum days +
        (txs.map (fun t => ((days.map (·.date)).count t.date : Rat) *
          (if 0 < t.amount then 0 else |(t.amount : Rat)| / 100))).sum := by
  induction txs generalizing days with
  | nil => simp
  | cons t ts ih =>
    rw [List.foldl_cons, ih (applyTx days t), sum_expenses_applyTx, applyTx_dates,
      List.map_cons, List.sum_cons]
    ring

theorem count_initDays_dates (s e x : Nat) :
    ((initDays s e).map (·.date)).count x = (if s ≤ x ∧ x ≤ e then 1 else 0) := by
  rw [initDays_dates]
  have hnd : ((List.range (e + 1 - s)).map (fun i => s + i)).Nodup :=
    List.Nodup.map (fun a b hab => by omega) (List.nodup_range _)
  by_cases h : s ≤ x ∧ x ≤ e
  · rw [if_pos h]
    apply List.count_eq_one_of_mem hnd
    simp only [List.mem_map, List.mem_range]
    exact ⟨x - s, by omega, by omega⟩
  · rw [if_neg h]
    apply List.count_eq_zero_of_not_mem
    simp only [List.mem_map, List.mem_range]
    rintro ⟨i, hi, rfl⟩
    omega

theorem sum_map_zero (l : List Nat) : (l.map (fun _ => (0 : Rat))).sum = 0 := by
  induction l with
  | nil => rfl
  | cons x xs ih => simp [ih]

theorem incomeSum_initDays (s e : Nat) : incomeSum (initDays s e) = 0 := by
  unfold incomeSum initDays
  rw [List.map_map]
  exact sum_map_zero _

theorem expensesSum_initDays (s e : Nat) : expensesSum (initDays s e) = 0 := by
  unfold expensesSum initDays
  rw [List.map_map]
  exact sum_map_zero _

theorem incomeSum_map_truncDay (l : List DayRec) :
    incomeSum (l.map truncDay) = incomeSum l := by
  simp only [incomeSum, List.map_map]
  rfl

theorem expensesSum_map_truncDay (l : List DayRec) :
    expensesSum (l.map truncDay) = expensesSum l := by
  simp only [expensesSum, List.map_map]
  rfl

theorem indicator_sum_income (s e : Nat) (txs : List Tx) :
    (txs.map (fun t => (((initDays s e).map (·.date)).count t.date : Rat) *
        (if 0 < t.amount then (t.amount : Rat) / 100 else 0))).sum
      = ((txs.filter (fun t => decide (s ≤ t.date) && decide (t.date ≤ e)
          && decide (0 < t.amount))).map (fun t => (t.amount : Rat))).sum / 100 := by
  induction txs with
  | nil => simp
  | cons t ts ih =>
    rw [List.map_cons, List.sum_cons, ih, count_initDays_dates]
    by_cases h1 : s ≤ t.date ∧ t.date ≤ e
    · by_cases h2 : 0 < t.amount
      · rw [if_pos h1, if_pos h2,
          List.filter_cons_of_pos (by simp [h1.1, h1.2, h2]),
          List.map_cons, List.sum_cons]
        push_cast
        ring
      · rw [if_pos h1, if_neg h2,
          List.filter_cons_of_neg (by simp [h2])]
        push_cast
        ring
    · rw [if_neg h1,
        List.filter_cons_of_neg (by simp only [Bool.and_eq_true, decide_eq_true_eq]; tauto)]
      push_cast
      ring

theorem indicator_sum_expenses (s e : Nat) (txs : List Tx) :
    (txs.map (fun t => (((initDays s e).map (·.date)).count t.date : Rat) *
        (if 0 < t.amount then 0 else |(t.amount : Rat)| / 100))).sum
      = ((txs.filter (fun t => decide (s ≤ t.date) && decide (t.date ≤ e)
          && decide (t.amount < 0))).map (fun t => |(t.amount : Rat)|)).sum / 100 := by
  induction txs with
  | nil => simp
  | cons t ts ih =>
    rw [List.map_cons, List.sum_cons, ih, count_initDays_dates]
    by_cases h1 : s ≤ t.date ∧ t.date ≤ e
    · by_cases h2 : 0 < t.amount
      · rw [if_pos h1, if_pos h2,
          List.filter_cons_of_neg (by simp only [Bool.and_eq_true, decide_eq_true_eq]; omega)]
        push_cast
        ring
      · by_cases h3 : t.amount < 0
        · rw [if_pos h1, if_neg h2,
            List.filter_cons_of_pos (by simp [h1.1, h1.2, h3]),
            List.map_cons, List.sum_cons]
          push_cast
          ring
        · have ha : t.amount = 0 := by omega
          rw [if_pos h1, if_neg h2,
            List.filter_cons_of_neg (by simp only [Bool.and_eq_true, decide_eq_true_eq]; omega),
            ha]
          norm_num
    · rw [if_neg h1,
        List.filter_cons_of_neg (by simp only [Bool.and_eq_true, decide_eq_true_eq]; tauto)]
      push_cast
      ring

theorem length_insertContrib (x : Contrib) (l : List Contrib) :
    (insertContrib x l).length = l.length + 1 := by
  induction l with
  | nil => rfl
  | cons y ys ih =>
    unfold insertContrib
    split <;> simp [ih]

theorem mem_insertContrib (a x : Contrib) (l : List Contrib) :
    a ∈ insertContrib x l ↔ a = x ∨ a ∈ l := by
  induction l with
  | nil => simp [insertContrib]
  | cons y ys ih =>
    unfold insertContrib
    split
    · simp
    · simp only [List.mem_cons, ih]
      tauto

theorem pairwise_insertContrib (x : Contrib) (l : List Contrib)
    (h : l.Pairwise (fun a b => b.amount ≤ a.amount)) :
    (insertContrib x l).Pairwise (fun a b => b.amount ≤ a.amount) := by
  induction l with
  | nil => simp [insertContrib]
  | cons y ys ih =>
    rw [List.pairwise_cons] at h
    unfold insertContrib
    split
    · rename_i hle
      rw [List.pairwise_cons]
      refine ⟨?_, List.pairwise_cons.mpr ⟨h.1, h.2⟩⟩
      intro z hz
      rcases List.mem_cons.mp hz with rfl | hz'
      · exact hle
      · exact le_trans (h.1 z hz') hle
    · rename_i hgt
      rw [List.pairwise_cons]
      refine ⟨?_, ih h.2⟩
      intro z hz
      rcases (mem_insertContrib z x ys).mp hz with rfl | hz'
      · exact le_of_not_le hgt
      · exact h.1 z hz'

theorem pairwise_sortContribs (l : List Contrib) :
    (sortContribs l).Pairwise (fun a b => b.amount ≤ a.amount) := by
  induction l with
  | nil => simp [sortContribs]
  | cons x xs ih => exact pairwise_insertContrib x _ ih

theorem filter_insertContrib (x : Contrib) (l : List Contrib) (q : Rat) :
    (insertContrib x l).filter (fun c => c.amount = q) =
      (x :: l).filter (fun c => c.amount = q) := by
  induction l with
  | nil => rfl
  | cons y ys ih =>
    unfold insertContrib
    split
    · rfl
    · rename_i hgt
      simp only [List.filter_cons, ih]
      by_cases hx : x.amount = q <;> by_cases hy : y.amount = q <;>
        simp [hx, hy]
      exact absurd (by rw [hy, hx] : y.amount ≤ x.amount) hgt

theorem filter_sortContribs (l : List Contrib) (q : Rat) :
    (sortContribs l).filter (fun c => c.amount = q) =
      l.filter (fun c => c.amount = q) := by
  induction l with
  | nil => rfl
  | cons x xs ih =>
    show (insertContrib x (sortContribs xs)).filter _ = _
    rw [filter_insertContrib]
    simp only [List.filter_cons, ih]

theorem filter_take_append (l : List Contrib) (n : Nat) (q : Rat) :
    ∃ r, l.filter (fun c => c.amount = q) =
      (l.take n).filter (fun c => c.amount = q) ++ r := by
  refine ⟨(l.drop n).filter (fun c => c.amount = q), ?_⟩
  conv_lhs => rw [← List.take_append_drop n l]
  rw [List.filter_append]

end Daily

namespace Merge

theorem lookupCat_addSpending (m : List (String × Int)) (p : String × Int)
    (label : String) :
    lookupCat (addSpending m p) label =
      lookupCat m label + (if p.1 = label then p.2 else 0) := by
  by_cases h : p.1 = label
  · rw [if_pos h]
    unfold lookupCat addSpending
    rw [← h]
    exact lookupD_upsert_self m p.1 0 (fun v => v + p.2)
  · rw [if_neg h, add_zero]
    unfold lookupCat addSpending
    exact lookupD_upsert_ne m p.1 label 0 0 _ (fun hc => h hc.symm)

theorem lookupCat_foldl_addSpending (s : List (String × Int))
    (m : List (String × Int)) (label : String) :
    lookupCat (s.foldl addSpending m) label = lookupCat m label + labelTotal s label := by
  induction s generalizing m with
  | nil => simp [labelTotal]
  | cons p ps ih =>
    rw [List.foldl_cons, ih, lookupCat_addSpending]
    unfold labelTotal
    by_cases h : p.1 = label
    · rw [if_pos h, List.filter_cons_of_pos (by simp [h]), List.map_cons, List.sum_cons]
      ring
    · rw [if_neg h, List.filter_cons_of_neg (by simp [h]), add_zero]

theorem lookupCat_mergeSpending_general (ls : List (List (String × Int)))
    (m : List (String × Int)) (label : String) :
    lookupCat (ls.foldl (fun acc s => s.foldl addSpending acc) m) label =
      lookupCat m label + (ls.map (fun s => labelTotal s label)).sum := by
  induction ls generalizing m with
  | nil => simp
  | cons s ss ih =>
    rw [List.foldl_cons, ih, lookupCat_foldl_addSpending, List.map_cons, List.sum_cons]
    ring

theorem lookupCat_mergeSpending (ls : List (List (String × Int))) (label : String) :
    lookupCat (mergeSpending ls) label = (ls.map (fun s => labelTotal s label)).sum := by
  unfold mergeSpending
  rw [lookupCat_mergeSpending_general]
  simp [lookupCat, lookupD]

theorem foldResults_general (rs : List AccountData) (m : MergedView) :
    rs.foldl mergeStep m =
      ⟨m.allTxs ++ (rs.map (·.txs)).flatten,
       (rs.map (·.spending)).foldl (fun acc s => s.foldl addSpending acc) m.spendingByCat,
       m.totalBal + (rs.map (·.latestBal)).sum⟩ := by
  induction rs generalizing m with
  | nil => cases m; simp
  | cons r rs ih =>
    rw [List.foldl_cons, ih]
    simp [mergeStep, add_assoc]

theorem foldResults_spec (rs : List AccountData) :
    (foldResults rs).allTxs = (rs.map (·.txs)).flatten
    ∧ (foldResults rs).totalBal = (rs.map (·.latestBal)).sum
    ∧ (foldResults rs).spendingByCat = mergeSpending (rs.map (·.spending)) := by
  unfold foldResults mergeSpending
  rw [foldResults_general]
  exact ⟨by simp, by simp, rfl⟩

end Merge

namespace Cat

theorem pass2Step_roots (cats : List Category) (st : PassState) (c : Category) :
    (pass2Step cats st c).roots = st.roots ++ (rootIdOf cats c).toList := by
  unfold pass2Step rootIdOf
  rcases hid : c.id with _ | i
  · simp
  · rcases hp : c.parent_id with _ | pid
    · by_cases hm : inMap cats i
      · simp [hm]
      · simp [hm]
    · by_cases hm : inMap cats i
      · by_cases hm2 : inMap cats pid <;> simp [hm, hm2]
      · simp [hm]

theorem childIds_upsert_self (cm : List (Int × List Int)) (p j : Int) :
    childIds (upsert cm p [] (fun l => l ++ [j])) p = childIds cm p ++ [j] := by
  unfold childIds
  exact lookupD_upsert_self cm p [] (fun l => l ++ [j])

theorem childIds_upsert_ne (cm : List (Int × List Int)) (p j q : Int) (h : q ≠ p) :
    childIds (upsert cm p [] (fun l => l ++ [j])) q = childIds cm q := by
  unfold childIds
  exact lookupD_upsert_ne cm p q [] [] _ h

theorem pass2Step_childIds (cats : List Category) (st : PassState) (c : Category)
    (pid : Int) :
    childIds (pass2Step cats st c).childMap pid =
      childIds st.childMap pid ++ (childOf cats pid c).toList := by
  unfold pass2Step childOf
  rcases hid : c.id with _ | i
  · simp
  · rcases hp : c.parent_id with _ | p
    · by_cases hm : inMap cats i <;> simp [hm]
    · by_cases hm : inMap cats i
      · by_cases hm2 : inMap cats p
        · by_cases hq : p = pid
          · subst hq
            simp only [hm, hm2, if_true, Bool.and_self, beq_self_eq_true, Bool.and_true]
            rw [childIds_upsert_self]
            simp
          · have hb : (p == pid) = false := beq_eq_false_iff_ne.mpr hq
            simp only [hm, hm2, hb, if_true, Bool.and_false, Bool.true_and, Bool.false_eq_true,
              if_false]
            rw [childIds_upsert_ne _ _ _ _ (fun hc => hq hc.symm)]
            simp
        · simp [hm, hm2]
      · simp [hm]

theorem foldl_pass2Step_roots (cats l : List Category) (st : PassState) :
    (l.foldl (pass2Step cats) st).roots = st.roots ++ l.filterMap (rootIdOf cats) := by
  induction l generalizing st with
  | nil => simp
  | cons c cs ih =>
    rw [List.foldl_cons, ih, pass2Step_roots, List.filterMap_cons]
    rcases h : rootIdOf cats c with _ | i <;> simp [h]

theorem foldl_pass2Step_childIds (cats l : List Category) (st : PassState) (pid : Int) :
    childIds ((l.foldl (pass2Step cats) st)).childMap pid =
      childIds st.childMap pid ++ l.filterMap (childOf cats pid) := by
  induction l generalizing st with
  | nil => simp
  | cons c cs ih =>
    rw [List.foldl_cons, ih, pass2Step_childIds, List.filterMap_cons]
    rcases h : childOf cats pid c with _ | i <;> simp [h]

theorem secondPass_roots (cats : List Category) :
    (secondPass cats).roots = cats.filterMap (rootIdOf cats) := by
  unfold secondPass
  rw [foldl_pass2Step_roots]
  rfl

theorem secondPass_childIds (cats : List Category) (pid : Int) :
    childIds (secondPass cats).childMap pid = cats.filterMap (childOf cats pid) := by
  unfold secondPass
  rw [foldl_pass2Step_childIds]
  rfl

theorem count_filterMap_option (f : Category → Option Int) (l : List Category)
    (i : Int) :
    (l.filterMap f).count i = l.countP (fun c => f c == some i) := by
  induction l with
  | nil => rfl
  | cons c cs ih =>
    rw [List.filterMap_cons, List.countP_cons]
    rcases h : f c with _ | j
    · simp [h, ih]
    · rw [List.count_cons, ih]
      simp [h]

theorem inMap_of_mem (cats : List Category) (c : Category) (i : Int)
    (hc : c ∈ cats) (hid : c.id = some i) : inMap cats i = true := by
  unfold inMap
  rw [List.any_eq_true]
  exact ⟨c, hc, by simp [hid]⟩

theorem id_injOn (cats : List Category) (hnd : (catIds cats).Nodup) :
    ∀ x ∈ cats, ∀ y ∈ cats, ∀ i : Int, x.id = some i → y.id = some i → x = y := by
  induction cats with
  | nil => simp
  | cons z zs ih =>
    rcases hz : z.id with _ | j
    · have hnd' : (catIds zs).Nodup := by
        simpa [catIds, List.filterMap_cons, hz] using hnd
      intro x hx y hy i hxi hyi
      rcases List.mem_cons.mp hx with rfl | hx'
      · rw [hz] at hxi; cases hxi
      · rcases List.mem_cons.mp hy with rfl | hy'
        · rw [hz] at hyi; cases hyi
        · exact ih hnd' x hx' y hy' i hxi hyi
    · have hcat : catIds (z :: zs) = j :: catIds zs := by
        simp [catIds, List.filterMap_cons, hz]
      rw [hcat, List.nodup_cons] at hnd
      intro x hx y hy i hxi hyi
      rcases List.mem_cons.mp hx with rfl | hx'
      · rcases List.mem_cons.mp hy with rfl | hy'
        · rfl
        · exfalso
          rw [hz] at hxi
          injection hxi with hj
          subst hj
          exact hnd.1 (List.mem_filterMap.mpr ⟨y, hy', hyi⟩)
      · rcases List.mem_cons.mp hy with rfl | hy'
        · exfalso
          rw [hz] at hyi
          injection hyi with hj
          subst hj
          exact hnd.1 (List.mem_filterMap.mpr ⟨x, hx', hxi⟩)
        · exact ih hnd.2 x hx' y hy' i hxi hyi

theorem childOf_id (cats : List Category) (pid : Int) (c : Category) (i : Int)
    (h : childOf cats pid c = some i) :
    c.id = some i ∧ c.parent_id = some pid := by
  unfold childOf at h
  rcases hid : c.id with _ | j <;> rw [hid] at h
  · simp at h
  · rcases hp : c.parent_id with _ | p <;> rw [hp] at h
    · simp at h
    · cases hb : (inMap cats j && inMap cats p && (p == pid)) with
      | false => simp [hb] at h
      | true =>
        simp only [hb, if_true, Option.some.injEq] at h
        subst h
        simp only [Bool.and_eq_true, beq_iff_eq] at hb
        exact ⟨rfl, by rw [hb.2]⟩

theorem rootIdOf_spec (cats : List Category) (c : Category) (i : Int)
    (h : rootIdOf cats c = some i) :
    c.id = some i ∧ c.parent_id = none := by
  unfold rootIdOf at h
  rcases hid : c.id with _ | j <;> rw [hid] at h
  · simp at h
  · rcases hp : c.parent_id with _ | p <;> rw [hp] at h
    · cases hm : inMap cats j with
      | false => simp [hm] at h
      | true =>
        simp only [hm, if_true, Option.some.injEq] at h
        subst h
        exact ⟨rfl, rfl⟩
    · simp at h

theorem pushedChild_spec (cats : List Category) (c : Category) (i : Int)
    (h : pushedChild cats c = some i) :
    c.id = some i ∧ ∃ p, c.parent_id = some p ∧ inMap cats p = true := by
  unfold pushedChild at h
  rcases hid : c.id with _ | j <;> rw [hid] at h
  · simp at h
  · rcases hp : c.parent_id with _ | p <;> rw [hp] at h
    · simp at h
    · cases hb : (inMap cats j && inMap cats p) with
      | false => simp [hb] at h
      | true =>
        simp only [hb, if_true, Option.some.injEq] at h
        subst h
        simp only [Bool.and_eq_true] at hb
        exact ⟨rfl, p, rfl, hb.2⟩

theorem mem_childIds_allChildIds (cm : List (Int × List Int)) (j x : Int)
    (h : x ∈ childIds cm j) : x ∈ allChildIds cm := by
  induction cm with
  | nil => cases h
  | cons p rest ih =>
    unfold childIds lookupD at h
    unfold allChildIds
    rw [List.map_cons, List.flatten_cons, List.mem_append]
    by_cases hp : p.1 = j
    · rw [if_pos hp] at h
      exact Or.inl h
    · rw [if_neg hp] at h
      exact Or.inr (ih h)

theorem mem_allChildIds_upsert (cm : List (Int × List Int)) (p j x : Int)
    (h : x ∈ allChildIds (upsert cm p [] (fun l => l ++ [j]))) :
    x ∈ allChildIds cm ∨ x = j := by
  induction cm with
  | nil =>
    rw [upsert_nil] at h
    unfold allChildIds at h
    rw [List.map_cons, List.map_nil, List.flatten_cons, List.flatten_nil,
      List.append_nil] at h
    right
    simpa using h
  | cons q rest ih =>
    rw [upsert_cons] at h
    by_cases hq : q.1 = p
    · rw [if_pos hq] at h
      unfold allChildIds at h ⊢
      rw [List.map_cons, List.flatten_cons] at h ⊢
      rcases List.mem_append.mp h with h1 | h1
      · rcases List.mem_append.mp h1 with h2 | h2
        · exact Or.inl (List.mem_append.mpr (Or.inl h2))
        · right; simpa using h2
      · exact Or.inl (List.mem_append.mpr (Or.inr h1))
    · rw [if_neg hq] at h
      unfold allChildIds at h ⊢
      rw [List.map_cons, List.flatten_cons] at h ⊢
      rcases List.mem_append.mp h with h1 | h1
      · exact Or.inl (List.mem_append.mpr (Or.inl h1))
      · rcases ih h1 with h2 | h2
        · exact Or.inl (List.mem_append.mpr (Or.inr h2))
        · exact Or.inr h2

theorem mem_allChildIds_pass2Step (cats : List Category) (st : PassState)
    (c : Category) (x : Int)
    (h : x ∈ allChildIds (pass2Step cats st c).childMap) :
    x ∈ allChildIds st.childMap ∨ pushedChild cats c = some x := by
  unfold pass2Step at h
  rcases hid : c.id with _ | i <;> rw [hid] at h
  · exact Or.inl h
  · cases hm : inMap cats i with
    | false =>
      simp only [hm, Bool.false_eq_true, if_false] at h
      exact Or.inl h
    | true =>
      rcases hp : c.parent_id with _ | p <;> rw [hp] at h
      · simp only [hm, if_true] at h
        exact Or.inl h
      · cases hm2 : inMap cats p with
        | false =>
          simp only [hm, hm2, Bool.false_eq_true, if_true, if_false] at h
          exact Or.inl h
        | true =>
          simp only [hm, hm2, if_true] at h
          rcases mem_allChildIds_upsert st.childMap p i x h with h' | h'
          · exact Or.inl h'
          · right
            unfold pushedChild
            rw [hid, hp]
            simp [hm, hm2, h']

theorem mem_allChildIds_secondPass (cats : List Category) (x : Int)
    (h : x ∈ allChildIds (secondPass cats).childMap) :
    ∃ c ∈ cats, pushedChild cats c = some x := by
  unfold secondPass at h
  suffices hgen : ∀ (l : List Category) (st : PassState),
      x ∈ allChildIds (l.foldl (pass2Step cats) st).childMap →
      x ∈ allChildIds st.childMap ∨ ∃ c ∈ l, pushedChild cats c = some x by
    rcases hgen cats ⟨[], []⟩ h with h' | h'
    · cases h'
    · exact h'
  intro l
  induction l with
  | nil => exact fun st h' => Or.inl h'
  | cons c cs ih =>
    intro st h'
    rw [List.foldl_cons] at h'
    rcases ih (pass2Step cats st c) h' with h'' | h''
    · rcases mem_allChildIds_pass2Step cats st c x h'' with h3 | h3
      · exact Or.inl h3
      · exact Or.inr ⟨c, List.mem_cons_self c cs, h3⟩
    · obtain ⟨c', hc', hpc⟩ := h''
      exact Or.inr ⟨c', List.mem_cons_of_mem c hc', hpc⟩

theorem idsOf_mk (i : Int) (cs : List CTree) :
    idsOf (CTree.mk i cs) = i :: (cs.attach.map (fun c => idsOf c.1)).flatten := by
  rw [idsOf]

theorem mem_idsOf (t : CTree) (x : Int) :
    x ∈ idsOf t ↔ x = t.id ∨ ∃ c ∈ t.children, x ∈ idsOf c := by
  cases t with
  | mk i cs =>
    rw [idsOf_mk]
    simp only [CTree.id, CTree.children, List.mem_cons, List.mem_flatten, List.mem_map,
      List.mem_attach, true_and]
    constructor
    · rintro (rfl | ⟨l, ⟨c, rfl⟩, hx⟩)
      · exact Or.inl rfl
      · exact Or.inr ⟨c.1, c.2, hx⟩
    · rintro (rfl | ⟨c, hc, hx⟩)
      · exact Or.inl rfl
      · exact Or.inr ⟨idsOf c, ⟨⟨c, hc⟩, rfl⟩, hx⟩

theorem mem_idsOf_build (cm : List (Int × List Int)) (fuel : Nat) (j x : Int)
    (h : x ∈ idsOf (build cm fuel j)) : x = j ∨ x ∈ allChildIds cm := by
  induction fuel generalizing j with
  | zero =>
    rw [build, mem_idsOf] at h
    rcases h with h | ⟨c, hc, _⟩
    · exact Or.inl h
    · cases hc
  | succ n ih =>
    rw [build, mem_idsOf] at h
    rcases h with h | ⟨c, hc, hx⟩
    · exact Or.inl h
    · simp only [CTree.children, List.mem_map] at hc
      obtain ⟨k, hk, rfl⟩ := hc
      rcases ih k hx with rfl | h'
      · exact Or.inr (mem_childIds_allChildIds cm j x hk)
      · exact Or.inr h'

theorem mem_forestIds (f : List CTree) (x : Int) :
    x ∈ forestIds f ↔ ∃ t ∈ f, x ∈ idsOf t := by
  unfold forestIds
  simp only [List.mem_flatten, List.mem_map]
  constructor
  · rintro ⟨l, ⟨t, ht, rfl⟩, hx⟩
    exact ⟨t, ht, hx⟩
  · rintro ⟨t, ht, hx⟩
    exact ⟨idsOf t, ⟨t, ht, rfl⟩, hx⟩

theorem inMap_perm (cats1 cats2 : List Category) (h : cats1.Perm cats2) (i : Int) :
    inMap cats1 i = inMap cats2 i := by
  unfold inMap
  apply Bool.eq_iff_iff.mpr
  simp only [List.any_eq_true]
  constructor
  · rintro ⟨c, hc, hp⟩; exact ⟨c, h.subset hc, hp⟩
  · rintro ⟨c, hc, hp⟩; exact ⟨c, h.symm.subset hc, hp⟩

end Cat

/-! ## Claim theorems -/

/-- C1: for every inclusive date range `[s, e]` and every transaction set,
`dailyData` returns a date-ascending sequence whose length is the inclusive day
count `e - s + 1`; with no transactions every day of the range is the
zero-initialized record, and a transaction dated outside `[s, e]` leaves the
output unchanged. -/
theorem c1_daily_range_shape (s e : Nat) (txs : List Daily.Tx) (hse : s ≤ e) :
    (Daily.dailyData s e txs).length = e - s + 1
    ∧ (Daily.dailyData s e txs).Pairwise (fun a b => a.date < b.date)
    ∧ Daily.dailyData s e [] =
        (List.range (e + 1 - s)).map (fun i => Daily.zeroDay (s + i))
    ∧ ∀ (pre post : List Daily.Tx) (t : Daily.Tx), (t.date < s ∨ e < t.date) →
        Daily.dailyData s e (pre ++ t :: post) = Daily.dailyData s e (pre ++ post) := by
  refine ⟨?_, ?_, ?_, ?_⟩
  · have h1 : (Daily.dailyData s e txs).length
        = ((Daily.dailyData s e txs).map (·.date)).length := (List.length_map _ _).symm
    rw [h1, Daily.dailyData_dates, Daily.initDays_dates, List.length_map, List.length_range]
    omega
  · rw [Daily.dailyData_eq_preSort]
    exact Daily.preSort_pairwise s e txs
  · have hcomp : Daily.truncDay ∘ (fun i => Daily.zeroDay (s + i))
        = (fun i => Daily.zeroDay (s + i)) := rfl
    rw [Daily.dailyData_eq_preSort, List.foldl_nil, Daily.initDays, List.map_map, hcomp]
  · intro pre post t ht
    rw [Daily.dailyData_eq_preSort, Daily.dailyData_eq_preSort]
    congr 1
    rw [List.foldl_append, List.foldl_append, List.foldl_cons]
    congr 1
    apply Daily.applyTx_of_not_mem
    rw [Daily.foldl_applyTx_dates, Daily.mem_initDays_dates s e t.date hse]
    omega

theorem c1_daily_range_shape_witness :
    (0 : Nat) ≤ 2 ∧ (Daily.dailyData 0 2 [⟨1, "p", 100⟩]).length = 2 - 0 + 1 :=
  ⟨by decide, (c1_daily_range_shape 0 2 [⟨1, "p", 100⟩] (by decide)).1⟩

/-- C5: `percent` is the clamped ratio `min(100, spent/allocated*100)` for a
positive allocation and `0` otherwise (so it never exceeds 100), while
`overBudget` is the unclamped comparison `spent > allocated`; in particular
allocated = 0, spent = 500 gives percent 0 and overBudget true. -/
theorem c5_budget_utilization (b : Budget.BudgetWithSpending) :
    Budget.percentOf b =
      (if 0 < b.allocated_amount
        then min 100 ((b.spent_amount : Rat) / (b.allocated_amount : Rat) * 100)
        else 0)
    ∧ (Budget.isOverBudget b = true ↔ b.allocated_amount < b.spent_amount)
    ∧ Budget.percentOf b ≤ 100
    ∧ Budget.percentOf ⟨0, 500⟩ = 0
    ∧ Budget.isOverBudget ⟨0, 500⟩ = true := by
  refine ⟨rfl, by simp [Budget.isOverBudget], ?_, by norm_num [Budget.percentOf], by decide⟩
  unfold Budget.percentOf
  split
  · exact min_le_left _ _
  · norm_num

/-- C6: the recurring-cost normalization multiplies by 4.33 for weekly, 2.17
for biweekly, divides by 12 for yearly, keeps monthly as-is, and any
unrecognized frequency tag falls back to the plain magnitude. -/
theorem c6_frequency_normalization (f : String) (m : Int)
    (hf : f ∉ (["weekly", "biweekly", "monthly", "yearly"] : List String)) :
    Recur.subMonthly ⟨100, "weekly"⟩ = 433
    ∧ Recur.subMonthly ⟨100, "biweekly"⟩ = 217
    ∧ Recur.subMonthly ⟨1200, "yearly"⟩ = 100
    ∧ Recur.subMonthly ⟨100, "monthly"⟩ = 100
    ∧ Recur.subMonthly ⟨m, f⟩ = |(m : Rat)| := by
  refine ⟨by norm_num [Recur.subMonthly], by norm_num [Recur.subMonthly],
    by norm_num [Recur.subMonthly], by norm_num [Recur.subMonthly], ?_⟩
  simp only [List.mem_cons, List.mem_singleton, not_or] at hf
  unfold Recur.subMonthly
  split <;> simp_all

theorem c6_frequency_normalization_witness :
    "unknown-tag" ∉ (["weekly", "biweekly", "monthly", "yearly"] : List String)
    ∧ Recur.subMonthly ⟨100, "unknown-tag"⟩ = 100 := by
  refine ⟨by decide, ?_⟩
  have h := (c6_frequency_normalization "unknown-tag" 100 (by decide)).2.2.2.2
  rw [h]; norm_num

/-- C10: a zero-amount transaction inside the range takes the expense branch:
both totals are left unchanged, a `{payee, 0}` entry is appended to the day's
expense-contributor list, and the income-contributor list is untouched. -/
theorem c10_zero_amount_expense_branch (days : List Daily.DayRec) (t : Daily.Tx)
    (h0 : t.amount = 0) :
    Daily.applyTx days t =
      days.map (fun d =>
        if d.date = t.date then
          { d with topExpenses := d.topExpenses ++ [⟨t.payee, 0⟩] }
        else d) := by
  unfold Daily.applyTx
  apply List.map_congr_left
  intro d _
  by_cases hd : d.date = t.date
  · rw [if_pos hd, if_pos hd]
    unfold Daily.updateDay
    rw [h0]
    norm_num
  · rw [if_neg hd, if_neg hd]

theorem c10_zero_amount_expense_branch_witness :
    (⟨0, "p", 0⟩ : Daily.Tx).amount = 0
    ∧ Daily.applyTx [Daily.zeroDay 0] ⟨0, "p", 0⟩ =
        [{ Daily.zeroDay 0 with topExpenses := [⟨"p", 0⟩] }] := by
  refine ⟨rfl, ?_⟩
  have h := c10_zero_amount_expense_branch [Daily.zeroDay 0] ⟨0, "p", 0⟩ rfl
  rw [h]; rfl

/-- C3: when merging accounts, balances are summed, transaction lists are
concatenated, and each label's merged spending total is the sum of that
label's per-account totals; the donut ranking and top-5 truncation are applied
to the merged map (never per account first). In the concrete scenario —
account A with income 10000 and expense 4000 in the month, account B with
expense 2000 — the merged view reports income 10000 and expenses 6000. -/
theorem c3_multi_account_merge (rs : List Merge.AccountData) (label : String) :
    (Merge.foldResults rs).allTxs = (rs.map (·.txs)).flatten
    ∧ (Merge.foldResults rs).totalBal = (rs.map (·.latestBal)).sum
    ∧ (Merge.foldResults rs).spendingByCat = Merge.mergeSpending (rs.map (·.spending))
    ∧ Merge.lookupCat (Merge.mergeSpending (rs.map (·.spending))) label
        = (rs.map (fun r => Merge.labelTotal r.spending label)).sum
    ∧ Merge.donutData (Merge.foldResults rs).spendingByCat
        = (Merge.sortEntries ((Merge.mergeSpending (rs.map (·.spending))).map
            (fun p => ⟨p.1, |(p.2 : Rat)| / 100⟩))).take 5
    ∧ Merge.currentMonthIncome 3 (Merge.foldResults
        [⟨[⟨3, 10000⟩, ⟨3, -4000⟩], [], 0⟩, ⟨[⟨3, -2000⟩], [], 0⟩]).allTxs = 10000
    ∧ Merge.currentMonthSpending 3 (Merge.foldResults
        [⟨[⟨3, 10000⟩, ⟨3, -4000⟩], [], 0⟩, ⟨[⟨3, -2000⟩], [], 0⟩]).allTxs = 6000 := by
  obtain ⟨h1, h2, h3⟩ := Merge.foldResults_spec rs
  refine ⟨h1, h2, h3, ?_, ?_, by decide, by decide⟩
  · rw [Merge.lookupCat_mergeSpending, List.map_map]
    rfl
  · rw [h3]
    rfl

/-- C2 counterexample: for the range `[0, 0]` and one in-range transaction of
100 minor units, the aggregator's income total over all days is 1 (major
units), not the in-range positive amount sum 100: the two sides differ by the
factor-100 conversion performed during accumulation. -/
theorem c2_counterexample :
    Daily.incomeSum (Daily.dailyData 0 0 [⟨0, "p", 100⟩]) = 1
    ∧ ((([⟨0, "p", 100⟩] : List Daily.Tx).filter
        (fun t => decide (0 ≤ t.date) && decide (t.date ≤ 0) && decide (0 < t.amount))).map
        (fun t => (t.amount : Rat))).sum = 100
    ∧ (1 : Rat) ≠ 100 := by
  refine ⟨?_, by norm_num, by norm_num⟩
  norm_num [Daily.incomeSum, Daily.dailyData, Daily.initDays, Daily.applyTx,
    Daily.updateDay, Daily.truncDay, Daily.zeroDay, Daily.sortContribs,
    Daily.insertContrib, Daily.sortByDate, Daily.insertByDate, List.range_succ]

/-- C2 as amended: the sum over all output days of the income total equals the
sum of in-range positive amounts divided by 100, and the expense total sum
equals the sum of `|amount|` over in-range negative amounts divided by 100
(the aggregator converts minor to major units while accumulating). -/
theorem c2_amended_sum_conservation (s e : Nat) (txs : List Daily.Tx) :
    Daily.incomeSum (Daily.dailyData s e txs)
      = ((txs.filter (fun t => decide (s ≤ t.date) && decide (t.date ≤ e)
          && decide (0 < t.amount))).map (fun t => (t.amount : Rat))).sum / 100
    ∧ Daily.expensesSum (Daily.dailyData s e txs)
      = ((txs.filter (fun t => decide (s ≤ t.date) && decide (t.date ≤ e)
          && decide (t.amount < 0))).map (fun t => |(t.amount : Rat)|)).sum / 100 := by
  constructor
  · rw [Daily.dailyData_eq_preSort, Daily.incomeSum_map_truncDay,
      Daily.sum_income_foldl, Daily.incomeSum_initDays,
      Daily.indicator_sum_income, zero_add]
  · rw [Daily.dailyData_eq_preSort, Daily.expensesSum_map_truncDay,
      Daily.sum_expenses_foldl, Daily.expensesSum_initDays,
      Daily.indicator_sum_expenses, zero_add]

/-- C7: the output days are exactly the accumulated days (`accDays`, whose
contributor lists hold each day's transactions in original processing order)
with `truncDay` applied, i.e. each output list is the 5-element prefix of the
stable descending sort of the day's accumulated list; every output list has
length at most 5 and is sorted by descending amount; and ties keep insertion
order: for every amount `q`, sorting the accumulated list leaves its
subsequence of `q`-amount entries unchanged, and the output list's
`q`-amount entries are a prefix of the accumulated list's `q`-amount entries. -/
theorem c7_top_contributor_stable (s e : Nat) (txs : List Daily.Tx) :
    Daily.dailyData s e txs = (Daily.accDays s e txs).map Daily.truncDay
    ∧ (∀ d0 ∈ Daily.accDays s e txs,
        (Daily.truncDay d0).topExpenses = (Daily.sortContribs d0.topExpenses).take 5
        ∧ (Daily.truncDay d0).topIncome = (Daily.sortContribs d0.topIncome).take 5)
    ∧ (∀ d ∈ Daily.dailyData s e txs,
        d.topExpenses.length ≤ 5 ∧ d.topIncome.length ≤ 5
        ∧ d.topExpenses.Pairwise (fun a b => b.amount ≤ a.amount)
        ∧ d.topIncome.Pairwise (fun a b => b.amount ≤ a.amount))
    ∧ (∀ d0 ∈ Daily.accDays s e txs, ∀ q : Rat,
        (Daily.sortContribs d0.topExpenses).filter (fun c => c.amount = q)
            = d0.topExpenses.filter (fun c => c.amount = q)
        ∧ (Daily.sortContribs d0.topIncome).filter (fun c => c.amount = q)
            = d0.topIncome.filter (fun c => c.amount = q)
        ∧ (∃ r, d0.topExpenses.filter (fun c => c.amount = q)
            = (Daily.truncDay d0).topExpenses.filter (fun c => c.amount = q) ++ r)
        ∧ (∃ r, d0.topIncome.filter (fun c => c.amount = q)
            = (Daily.truncDay d0).topIncome.filter (fun c => c.amount = q) ++ r)) := by
  refine ⟨Daily.dailyData_eq_preSort s e txs, fun d0 _ => ⟨rfl, rfl⟩, ?_, ?_⟩
  · intro d hd
    rw [Daily.dailyData_eq_preSort] at hd
    obtain ⟨d0, _, rfl⟩ := List.mem_map.mp hd
    exact ⟨List.length_take_le 5 _, List.length_take_le 5 _,
      List.Pairwise.sublist (List.take_sublist 5 _) (Daily.pairwise_sortContribs _),
      List.Pairwise.sublist (List.take_sublist 5 _) (Daily.pairwise_sortContribs _)⟩
  · intro d0 _ q
    refine ⟨Daily.filter_sortContribs d0.topExpenses q,
      Daily.filter_sortContribs d0.topIncome q, ?_, ?_⟩
    · obtain ⟨r, hr⟩ := Daily.filter_take_append (Daily.sortContribs d0.topExpenses) 5 q
      exact ⟨r, by rw [← Daily.filter_sortContribs]; exact hr⟩
    · obtain ⟨r, hr⟩ := Daily.filter_take_append (Daily.sortContribs d0.topIncome) 5 q
      exact ⟨r, by rw [← Daily.filter_sortContribs]; exact hr⟩

theorem c7_top_contributor_stable_witness :
    Daily.zeroDay 0 ∈ Daily.accDays 0 0 []
    ∧ (Daily.sortContribs (Daily.zeroDay 0).topExpenses).filter (fun c => c.amount = 0)
        = (Daily.zeroDay 0).topExpenses.filter (fun c => c.amount = 0)
    ∧ (Daily.truncDay (Daily.zeroDay 0)).topExpenses
        = (Daily.sortContribs (Daily.zeroDay 0).topExpenses).take 5 := by
  have hm : Daily.zeroDay 0 ∈ Daily.accDays 0 0 [] := by
    show Daily.zeroDay 0 ∈ [Daily.zeroDay 0]
    exact List.mem_singleton.mpr rfl
  exact ⟨hm, ((c7_top_contributor_stable 0 0 []).2.2.2 (Daily.zeroDay 0) hm 0).1,
    ((c7_top_contributor_stable 0 0 []).2.1 (Daily.zeroDay 0) hm).1⟩

/-- C4 counterexample: in the list `[X(id 1, parent 999), Y(id 2, parent 1)]`
the category Y's `parent_id` resolves to the existing category X, yet the
built forest is empty — Y does not appear in it at all (X hangs off the
dangling id 999, so neither node is reachable from a root). -/
theorem c4_counterexample :
    Cat.inMap [⟨some 1, "X", some 999⟩, ⟨some 2, "Y", some 1⟩] 1 = true
    ∧ (⟨some 2, "Y", some 1⟩ : Cat.Category).parent_id = some 1
    ∧ Cat.forestIds (Cat.buildCategoryTree
        [⟨some 1, "X", some 999⟩, ⟨some 2, "Y", some 1⟩]) = [] := by
  exact ⟨by decide, rfl, rfl⟩

/-- C4 as amended: for a category list with distinct non-null ids, each
category whose `parent_id` resolves to an existing category is recorded
exactly once in that parent's children array, but it may still be absent from
the returned forest when the parent itself is not reachable from a root; a
category whose `parent_id` is dangling is absent from the forest entirely
(neither promoted to root nor reported as an error). -/
theorem c4_amended_category_tree (cats : List Cat.Category) (c : Cat.Category)
    (i pid : Int) (hnd : (Cat.catIds cats).Nodup) (hc : c ∈ cats)
    (hid : c.id = some i) (hp : c.parent_id = some pid) :
    (Cat.inMap cats pid = true →
        (Cat.childIds (Cat.secondPass cats).childMap pid).count i = 1)
    ∧ (Cat.inMap cats pid = false →
        i ∉ Cat.forestIds (Cat.buildCategoryTree cats)) := by
  constructor
  · intro hm
    rw [Cat.secondPass_childIds, Cat.count_filterMap_option]
    have hle : cats.countP (fun x => Cat.childOf cats pid x == some i) ≤ 1 := by
      calc cats.countP (fun x => Cat.childOf cats pid x == some i)
          ≤ cats.countP (fun x => x.id == some i) := by
            apply List.countP_mono_left
            intro x _ hpx
            simp only [beq_iff_eq] at hpx ⊢
            exact (Cat.childOf_id cats pid x i hpx).1
        _ = (Cat.catIds cats).count i := (Cat.count_filterMap_option (·.id) cats i).symm
        _ ≤ 1 := List.nodup_iff_count_le_one.mp hnd i
    have hge : 0 < cats.countP (fun x => Cat.childOf cats pid x == some i) := by
      rw [List.countP_pos_iff]
      refine ⟨c, hc, ?_⟩
      simp only [beq_iff_eq]
      unfold Cat.childOf
      rw [hid, hp]
      simp [Cat.inMap_of_mem cats c i hc hid, hm]
    omega
  · intro hm hmem
    rw [Cat.mem_forestIds] at hmem
    obtain ⟨t, ht, hx⟩ := hmem
    unfold Cat.buildCategoryTree at ht
    obtain ⟨j, hj, rfl⟩ := List.mem_map.mp ht
    rcases Cat.mem_idsOf_build _ _ j i hx with rfl | hall
    · rw [Cat.secondPass_roots] at hj
      obtain ⟨x, hx', hr⟩ := List.mem_filterMap.mp hj
      obtain ⟨hid', hpar'⟩ := Cat.rootIdOf_spec cats x i hr
      have hxc : x = c := Cat.id_injOn cats hnd x hx' c hc i hid' hid
      rw [hxc, hp] at hpar'
      cases hpar'
    · obtain ⟨x, hx', hpc⟩ := Cat.mem_allChildIds_secondPass cats i hall
      obtain ⟨hid', p, hpar', hin⟩ := Cat.pushedChild_spec cats x i hpc
      have hxc : x = c := Cat.id_injOn cats hnd x hx' c hc i hid' hid
      rw [hxc, hp] at hpar'
      injection hpar' with hpp
      rw [← hpp, hm] at hin
      simp at hin

theorem c4_amended_category_tree_witness :
    ((Cat.catIds [⟨some 1, "A", none⟩, ⟨some 2, "B", some 1⟩]).Nodup
      ∧ Cat.inMap [⟨some 1, "A", none⟩, ⟨some 2, "B", some 1⟩] 1 = true)
    ∧ (Cat.childIds
        (Cat.secondPass [⟨some 1, "A", none⟩, ⟨some 2, "B", some 1⟩]).childMap 1).count 2
        = 1 := by
  refine ⟨⟨by decide, by decide⟩, ?_⟩
  exact (c4_amended_category_tree [⟨some 1, "A", none⟩, ⟨some 2, "B", some 1⟩]
    ⟨some 2, "B", some 1⟩ 2 1 (by decide) (by decide) rfl rfl).1 (by decide)

/-- C9 counterexample: swapping two root categories permutes the input but
changes the built forest — the root order follows the input order, so the
builder is not permutation-invariant as an ordered forest. -/
theorem c9_counterexample :
    ([⟨some 1, "A", none⟩, ⟨some 2, "B", none⟩] : List Cat.Category).Perm
        [⟨some 2, "B", none⟩, ⟨some 1, "A", none⟩]
    ∧ (Cat.buildCategoryTree [⟨some 1, "A", none⟩, ⟨some 2, "B", none⟩]).map Cat.CTree.id
        = [1, 2]
    ∧ (Cat.buildCategoryTree [⟨some 2, "B", none⟩, ⟨some 1, "A", none⟩]).map Cat.CTree.id
        = [2, 1]
    ∧ ([1, 2] : List Int) ≠ [2, 1] := by
  exact ⟨by decide, rfl, rfl, by decide⟩

/-- C9 as amended: the tree structure is order-insensitive only up to sibling
order — permuting the input permutes the root list and each parent's children
list (same parent-child relation, same multiplicities), while the ordered
forest itself follows the input order. -/
theorem c9_amended_order_up_to_siblings (cats1 cats2 : List Cat.Category)
    (h : cats1.Perm cats2) :
    (Cat.secondPass cats1).roots.Perm (Cat.secondPass cats2).roots
    ∧ ∀ pid : Int, (Cat.childIds (Cat.secondPass cats1).childMap pid).Perm
        (Cat.childIds (Cat.secondPass cats2).childMap pid) := by
  have hfun : ∀ i, Cat.inMap cats1 i = Cat.inMap cats2 i := Cat.inMap_perm cats1 cats2 h
  constructor
  · rw [Cat.secondPass_roots, Cat.secondPass_roots]
    have hrf : Cat.rootIdOf cats1 = Cat.rootIdOf cats2 := by
      funext c
      unfold Cat.rootIdOf
      rcases hci : c.id with _ | i <;> rcases hcp : c.parent_id with _ | p <;>
        simp [hci, hcp, hfun]
    rw [hrf]
    exact List.Perm.filterMap _ h
  · intro pid
    rw [Cat.secondPass_childIds, Cat.secondPass_childIds]
    have hcf : Cat.childOf cats1 pid = Cat.childOf cats2 pid := by
      funext c
      unfold Cat.childOf
      rcases hci : c.id with _ | i <;> rcases hcp : c.parent_id with _ | p <;>
        simp [hci, hcp, hfun]
    rw [hcf]
    exact List.Perm.filterMap _ h

theorem c9_amended_order_up_to_siblings_witness :
    ([⟨some 1, "A", none⟩, ⟨some 2, "B", none⟩] : List Cat.Category).Perm
        [⟨some 2, "B", none⟩, ⟨some 1, "A", none⟩]
    ∧ (Cat.secondPass [⟨some 1, "A", none⟩, ⟨some 2, "B", none⟩]).roots.Perm
        (Cat.secondPass [⟨some 2, "B", none⟩, ⟨some 1, "A", none⟩]).roots :=
  ⟨by decide, (c9_amended_order_up_to_siblings _ _ (by decide)).1⟩

/-- C8 counterexample: the daily aggregator does not hold totals in integer
minor units; a single in-range transaction of 150 minor units yields the
non-integer day total 3/2 (the division by 100 happens during accumulation). -/
theorem c8_counterexample :
    Daily.incomeSum (Daily.dailyData 0 0 [⟨0, "p", 150⟩]) = 3 / 2
    ∧ ¬ ∃ z : Int, Daily.incomeSum (Daily.dailyData 0 0 [⟨0, "p", 150⟩]) = (z : Rat) := by
  have h : Daily.incomeSum (Daily.dailyData 0 0 [⟨0, "p", 150⟩]) = 3 / 2 := by
    norm_num [Daily.incomeSum, Daily.dailyData, Daily.initDays, Daily.applyTx,
      Daily.updateDay, Daily.truncDay, Daily.zeroDay, Daily.sortContribs,
      Daily.insertContrib, Daily.sortByDate, Daily.insertByDate, List.range_succ]
  refine ⟨h, ?_⟩
  rintro ⟨z, hz⟩
  rw [h] at hz
  have h3 : (3 : Rat) = 2 * (z : Rat) := by field_simp at hz; linarith
  have h4 : (3 : Int) = 2 * z := by exact_mod_cast h3
  omega

/-- C8 as amended: daily totals are accumulated in decimal major units — each
transaction's amount is divided by 100 at accumulation time rather than only at
the presentation boundary. -/
theorem c8_amended_major_unit_accumulation (d : Daily.DayRec) (t : Daily.Tx) :
    (Daily.updateDay d t).income
        = d.income + (if 0 < t.amount then (t.amount : Rat) / 100 else 0)
    ∧ (Daily.updateDay d t).expenses
        = d.expenses + (if 0 < t.amount then 0 else |(t.amount : Rat)| / 100) :=
  ⟨Daily.updateDay_income d t, Daily.updateDay_expenses d t⟩

end Goblin
